import Mathlib

/-!
Formal model of the Setu transaction-routing core.

The definitions below are shallow embeddings of the Rust sources:

* `crates/setu-router-core/src/types.rs` — identifier types and constants;
* `crates/setu-router-core/src/strategy/object_shard.rs` — object-based shard routing;
* `crates/setu-router-core/src/strategy/consistent_hash.rs` — consistent-hash solver selection;
* `crates/setu-router-core/src/strategy/load_balanced.rs` — load-balanced solver selection;
* `crates/setu-router-core/src/unified_router.rs` — routing contexts and the unified router;
* `crates/setu-router/src/solver.rs` — solver descriptors and the health registry;
* `setu-router/src/pending_queue.rs` — the bounded FIFO admission queue.

Machine integers become `Nat` (with explicit `% 2^w` or `%` bounds where the code
relies on wrapping; none of the translated arithmetic overflows), `f64` ratios
become `ℚ`, fallible operations return `Except`/`Option`, and the 64-bit
truncated blake3 hash — an external library call — is an explicit function
parameter `hk : String → Nat` of the consistent-hash definitions.
-/

namespace Setu

/-! ### Types (`crates/setu-router-core/src/types.rs`) -/

/-- A 32-byte object identifier (`pub type ObjectId = [u8; 32]`), as a
byte vector indexed by position. -/
abbrev ObjectId := Fin 32 → Fin 256

/-- A 32-byte subnet identifier (`pub type SubnetId = [u8; 32]`). -/
abbrev SubnetId := Fin 32 → Fin 256

/-- Numeric shard identifier (`pub type ShardId = u16`); every value the code
produces is a `u16` remainder, so plain `Nat` is a faithful carrier. -/
abbrev ShardId := Nat

/-- `pub const ROOT_SUBNET: SubnetId = [0u8; 32]`. -/
def ROOT_SUBNET : SubnetId := fun _ => 0

/-- `pub const DEFAULT_SHARD_COUNT: u16 = 16`. -/
def DEFAULT_SHARD_COUNT : Nat := 16

/-- `enum RoutingMethod` from `types.rs`. -/
inductive RoutingMethod
  | BySubnet
  | ByObject
  | BySender
deriving DecidableEq

/-- Helper for concrete identifiers: an id whose first two bytes are `b0`, `b1`
and whose remaining thirty bytes are zero. -/
def mkId (b0 b1 : Fin 256) : ObjectId :=
  fun i => if i.val = 0 then b0 else if i.val = 1 then b1 else 0

/-! ### Object-based shard strategy
(`crates/setu-router-core/src/strategy/object_shard.rs`) -/

/-- `pub struct ObjectShardStrategy { shard_count: u16 }`. -/
structure ObjectShardStrategy where
  shard_count : Nat

namespace ObjectShardStrategy

/-- `ObjectShardStrategy::new()`. -/
def new : ObjectShardStrategy := ⟨DEFAULT_SHARD_COUNT⟩

/-- `ObjectShardStrategy::with_shard_count`. -/
def with_shard_count (shard_count : Nat) : ObjectShardStrategy := ⟨shard_count⟩

/-- `ObjectShardStrategy::route_object`: the big-endian `u16` made of the first
two bytes of the id (`u16::from_be_bytes([object_id[0], object_id[1]])`),
reduced modulo `shard_count`. -/
def route_object (s : ObjectShardStrategy) (object_id : ObjectId) : ShardId :=
  ((object_id 0).val * 256 + (object_id 1).val) % s.shard_count

/-- `ObjectShardStrategy::is_cross_shard`: `false` for zero or one objects,
otherwise whether any object after the first routes to a different shard than
the first (`objects.iter().skip(1).any(..)`). -/
def is_cross_shard (s : ObjectShardStrategy) (objects : List ObjectId) : Bool :=
  match objects with
  | [] => false
  | first :: rest => rest.any (fun obj => s.route_object obj != s.route_object first)

/-- `ObjectShardStrategy::get_involved_shards`: collect every object's shard,
`sort()` (modelled with insertion sort), then `dedup()` (removal of consecutive duplicates; on the sorted
list this equals full deduplication). -/
def get_involved_shards (s : ObjectShardStrategy) (objects : List ObjectId) : List ShardId :=
  ((objects.map s.route_object).insertionSort (· ≤ ·)).dedup

end ObjectShardStrategy

/-! ### Routing context and unified router
(`crates/setu-router-core/src/unified_router.rs`) -/

/-- `pub struct RoutingContext` from `unified_router.rs`. -/
structure RoutingContext where
  subnet_id : Option SubnetId
  primary_object : ObjectId
  touched_objects : List ObjectId
  sender : Option ObjectId

namespace RoutingContext

/-- `RoutingContext::with_subnet`. -/
def with_subnet (subnet_id : SubnetId) (primary_object : ObjectId) : RoutingContext :=
  { subnet_id := some subnet_id
    primary_object := primary_object
    touched_objects := [primary_object]
    sender := none }

/-- `RoutingContext::with_object`. -/
def with_object (primary_object : ObjectId) : RoutingContext :=
  { subnet_id := none
    primary_object := primary_object
    touched_objects := [primary_object]
    sender := none }

/-- `RoutingContext::with_touched_objects`: replaces the `touched_objects`
list wholesale (`self.touched_objects = objects`). -/
def with_touched_objects (ctx : RoutingContext) (objects : List ObjectId) : RoutingContext :=
  { ctx with touched_objects := objects }

/-- `RoutingContext::with_sender`. -/
def with_sender (ctx : RoutingContext) (sender : ObjectId) : RoutingContext :=
  { ctx with sender := some sender }

end RoutingContext

/-- The `UnifiedRoutingStrategy` enum. The Rust variants also carry a
`SubnetShardStrategy` value; its module (`strategy/subnet_shard.rs`) is not
among the sources, so the subnet router is carried as an abstract routing
function on the `UnifiedRouter` structure instead (see `UnifiedRouter`). -/
inductive UnifiedRoutingStrategy
  | SubnetFirst (object_shard_count : Nat)
  | ObjectOnly (shard_count : Nat)
  | SubnetOnly

/-- Modelled from the spec: the hash-based variant of the subnet shard router
(`SubnetShardRouter`, file `strategy/subnet_shard.rs`, absent from the
sources) "routes deterministically into a fixed shard count the same way
object-based routing does, substituting the subnet identifier as key". -/
def subnetRouteHashBased (shard_count : Nat) (subnet_id : SubnetId) : ShardId :=
  ((subnet_id 0).val * 256 + (subnet_id 1).val) % shard_count

/-- `pub struct UnifiedRouter`. The `subnet_router` field stands for the
`SubnetShardRouter` value, whose implementation is not among the sources: it
is kept as an abstract function `SubnetId → ShardId`, so every theorem proved
for all routers holds for whatever the real subnet router computes. -/
structure UnifiedRouter where
  strategy : UnifiedRoutingStrategy
  subnet_router : SubnetId → ShardId
  object_strategy : ObjectShardStrategy

namespace UnifiedRouter

/-- `UnifiedRouter::with_strategy`: the object strategy is sized by the
variant's shard count (`SubnetOnly` keeps the default-sized object strategy). -/
def with_strategy (strategy : UnifiedRoutingStrategy) (subnet_router : SubnetId → ShardId) :
    UnifiedRouter :=
  match strategy with
  | .SubnetFirst object_shard_count =>
      ⟨strategy, subnet_router, ObjectShardStrategy.with_shard_count object_shard_count⟩
  | .ObjectOnly shard_count =>
      ⟨strategy, subnet_router, ObjectShardStrategy.with_shard_count shard_count⟩
  | .SubnetOnly =>
      ⟨strategy, subnet_router, ObjectShardStrategy.new⟩

end UnifiedRouter

/-- `pub struct ShardRoutingResult`. -/
structure ShardRoutingResult where
  primary_shard : ShardId
  routing_method : RoutingMethod
  is_cross_shard : Bool
deriving DecidableEq

/-- `pub struct DetailedRoutingResult`. The Rust `object_shards` field is a
`HashMap<ObjectId, ShardId>`; it is kept here as the association list of
per-object entries. Key-collapsing of duplicate objects cannot change the
sorted deduplicated `all_shards` list, because duplicate keys carry equal
shard values. -/
structure DetailedRoutingResult where
  primary_shard : ShardId
  routing_method : RoutingMethod
  object_shards : List (ObjectId × ShardId)
  all_shards : List ShardId
  requires_coordination : Bool

namespace UnifiedRouter

/-- `UnifiedRouter::check_cross_shard_objects`: whether any touched object
routes (object-based) to a shard other than `primary_shard`. -/
def check_cross_shard_objects (r : UnifiedRouter) (ctx : RoutingContext)
    (primary_shard : ShardId) : Bool :=
  ctx.touched_objects.any (fun obj => r.object_strategy.route_object obj != primary_shard)

/-- `UnifiedRouter::route`. -/
def route (r : UnifiedRouter) (ctx : RoutingContext) : ShardRoutingResult :=
  match r.strategy with
  | .SubnetFirst _ =>
    match ctx.subnet_id with
    | some subnet_id =>
      let shard := r.subnet_router subnet_id
      { primary_shard := shard
        routing_method := .BySubnet
        is_cross_shard := r.check_cross_shard_objects ctx shard }
    | none =>
      let shard := r.object_strategy.route_object ctx.primary_object
      { primary_shard := shard
        routing_method := .ByObject
        is_cross_shard := r.check_cross_shard_objects ctx shard }
  | .ObjectOnly _ =>
    let shard := r.object_strategy.route_object ctx.primary_object
    { primary_shard := shard
      routing_method := .ByObject
      is_cross_shard := r.check_cross_shard_objects ctx shard }
  | .SubnetOnly =>
    let subnet_id := ctx.subnet_id.getD ROOT_SUBNET
    let shard := r.subnet_router subnet_id
    { primary_shard := shard
      routing_method := .BySubnet
      is_cross_shard := false }

/-- `UnifiedRouter::route_detailed`: per-object shards, the sorted deduplicated
union of object shards and the primary shard, and the coordination flag
`all_shards.len() > 1`. -/
def route_detailed (r : UnifiedRouter) (ctx : RoutingContext) : DetailedRoutingResult :=
  let primary_result := r.route ctx
  let object_shards := ctx.touched_objects.map
    (fun obj => (obj, r.object_strategy.route_object obj))
  let all_shards :=
    (((object_shards.map (·.2)) ++ [primary_result.primary_shard]).insertionSort (· ≤ ·)).dedup
  { primary_shard := primary_result.primary_shard
    routing_method := primary_result.routing_method
    object_shards := object_shards
    all_shards := all_shards
    requires_coordination := decide (1 < all_shards.length) }

end UnifiedRouter

/-! ### Solver descriptors and the health registry
(`crates/setu-router/src/solver.rs`) -/

/-- `enum SolverStatus`. -/
inductive SolverStatus
  | Online
  | Busy
  | Offline
  | Unknown
deriving DecidableEq

/-- `pub struct SolverInfo`. `u64`/`u32` fields become `Nat`; the
`last_heartbeat: Option<Instant>` timestamp becomes an `Option Nat` tick of an
abstract monotonic clock. -/
structure SolverInfo where
  id : String
  address : String
  status : SolverStatus
  resource_domains : List String
  pending_load : Nat
  max_capacity : Nat
  weight : Nat
  last_heartbeat : Option Nat
deriving DecidableEq

namespace SolverInfo

/-- `SolverInfo::new` (the clock instant at creation is passed explicitly). -/
def new (id address : String) (now : Nat) : SolverInfo :=
  { id := id
    address := address
    status := .Online
    resource_domains := []
    pending_load := 0
    max_capacity := 10000
    weight := 100
    last_heartbeat := some now }

/-- `SolverInfo::is_available`: `Online` and strictly below capacity. -/
def is_available (s : SolverInfo) : Bool :=
  s.status == .Online && s.pending_load < s.max_capacity

/-- `SolverInfo::load_ratio`: `pending_load / max_capacity` as an exact
rational (`1.0` for zero capacity); stands for the `f64` ratio. -/
def load_ratio (s : SolverInfo) : ℚ :=
  if s.max_capacity = 0 then 1 else (s.pending_load : ℚ) / (s.max_capacity : ℚ)

/-- `SolverInfo::can_handle_resource`. -/
def can_handle_resource (s : SolverInfo) (resource : String) : Bool :=
  if s.resource_domains.isEmpty then true
  else s.resource_domains.any (fun domain => resource.startsWith domain || domain == "*")

end SolverInfo

/-- The solver registry's shared table, as the list of values of the
`HashMap<SolverId, SolverInfo>` together with the configured
`heartbeat_timeout` (in clock ticks). Well-formed registries have pairwise
distinct ids, as `HashMap` keys are unique. -/
structure SolverRegistry where
  solvers : List SolverInfo
  heartbeat_timeout : Nat

namespace SolverRegistry

/-- The timeout update `check_timeouts` applies to a single entry: an entry
whose last heartbeat lies more than `heartbeat_timeout` ticks in the past is
forced to `Unknown` (entries already `Unknown` are left as they are, which is
the same state). -/
def check_timeouts_entry (timeout now : Nat) (s : SolverInfo) : SolverInfo :=
  match s.last_heartbeat with
  | some last_hb =>
    if timeout < now - last_hb then
      if s.status != .Unknown then { s with status := .Unknown } else s
    else s
  | none => s

/-- `SolverRegistry::check_timeouts`: the sweep over all entries. -/
def check_timeouts (reg : SolverRegistry) (now : Nat) : SolverRegistry :=
  { reg with solvers := reg.solvers.map (check_timeouts_entry reg.heartbeat_timeout now) }

/-- `SolverRegistry::get_available`: run the timeout sweep, then keep the
entries satisfying `is_available`. -/
def get_available (reg : SolverRegistry) (now : Nat) : List SolverInfo :=
  ((reg.check_timeouts now).solvers).filter (·.is_available)

end SolverRegistry

/-! ### Errors (`crates/setu-router-core/src/error.rs`) -/

/-- `enum RouterError`. -/
inductive RouterError
  | NoSolverAvailable
  | SolverNotFound (id : String)
  | InvalidConfig (msg : String)
deriving DecidableEq

/-! ### Load-balanced solver selection
(`crates/setu-router-core/src/strategy/load_balanced.rs`)

The strategies in `setu-router-core` consume `crate::solver::SolverInfo`; that
module mirrors the registry's `SolverInfo` (same fields `id`, `load_ratio()`,
`weight` are read), so the single `SolverInfo` structure above is used. -/

/-- Rust's `Iterator::max_by` (ties keep the later element), specialized to a
rational key: the comparison `score_a.partial_cmp(&score_b).unwrap_or(Equal)`
is total on the exact rationals. -/
def rust_max_by (f : SolverInfo → ℚ) (l : List SolverInfo) : Option SolverInfo :=
  l.foldl
    (fun acc x =>
      match acc with
      | none => some x
      | some a => if f x < f a then some a else some x)
    none

/-- Rust's `Iterator::min_by` (ties keep the earlier element), specialized to
a rational key. -/
def rust_min_by (f : SolverInfo → ℚ) (l : List SolverInfo) : Option SolverInfo :=
  l.foldl
    (fun acc x =>
      match acc with
      | none => some x
      | some a => if f x < f a then some x else some a)
    none

/-- The weighted-capacity score `(1 - load_ratio) * weight` used below the
threshold. -/
def lbScore (s : SolverInfo) : ℚ :=
  (1 - s.load_ratio) * (s.weight : ℚ)

/-- `LoadBalancedStrategy::select` (the strategy's one field is its
`load_threshold`, default `0.9`; the routing key is ignored). Candidates are
the solvers with `load_ratio` strictly below the threshold; if any exist the
one maximizing `(1 - load_ratio) * weight` wins, otherwise the globally least
loaded solver. The `none` fallbacks mirror `unwrap()` calls on selections from
lists already known non-empty and are unreachable. -/
def LoadBalancedStrategy.select (load_threshold : ℚ) (available : List SolverInfo)
    (_routing_key : String) : Except RouterError SolverInfo :=
  if available.isEmpty then .error .NoSolverAvailable
  else
    let candidates := available.filter (fun s => s.load_ratio < load_threshold)
    if !candidates.isEmpty then
      match rust_max_by lbScore candidates with
      | some s => .ok s
      | none => .error .NoSolverAvailable
    else
      match rust_min_by SolverInfo.load_ratio available with
      | some s => .ok s
      | none => .error .NoSolverAvailable

/-! ### Consistent-hash solver selection
(`crates/setu-router-core/src/strategy/consistent_hash.rs`)

`hash_key` truncates a blake3 digest to a little-endian `u64`; blake3 is an
external library, so the hash enters as an explicit parameter
`hk : String → Nat`. `solvers_hash` feeds every id's bytes into one hasher,
i.e. it hashes the plain concatenation of the ids — so it is `hk` applied to
`String.join` of the ids. -/

/-- The mutable ring cache (`ring_cache: RwLock<Option<(u64, BTreeMap<u64, usize>)>>`).
The `BTreeMap` is carried as its sorted association list. -/
structure CHState where
  cache : Option (Nat × List (Nat × Nat))
deriving DecidableEq

/-- Ordered insert-or-replace, the `BTreeMap::insert` step used while building
the ring. -/
def ringInsert : List (Nat × Nat) → Nat → Nat → List (Nat × Nat)
  | [], k, v => [(k, v)]
  | (k', v') :: rest, k, v =>
    if k < k' then (k, v) :: (k', v') :: rest
    else if k = k' then (k, v) :: rest
    else (k', v') :: ringInsert rest k v

/-- The ring-construction loop: for each solver id at list index `idx`, insert
`virtual_nodes` points keyed by `hash("{id}:{vn}")` mapping to `idx`. The
index accumulator mirrors `solvers.iter().enumerate()`. -/
def buildRingAux (hk : String → Nat) (virtual_nodes : Nat) :
    List String → Nat → List (Nat × Nat) → List (Nat × Nat)
  | [], _, ring => ring
  | id :: rest, idx, ring =>
    buildRingAux hk virtual_nodes rest (idx + 1)
      ((List.range virtual_nodes).foldl
        (fun r vn => ringInsert r (hk (id ++ ":" ++ toString vn)) idx) ring)

/-- The freshly built hash ring for a given id sequence. -/
def buildRing (hk : String → Nat) (virtual_nodes : Nat) (ids : List String) :
    List (Nat × Nat) :=
  buildRingAux hk virtual_nodes ids 0 []

/-- `ConsistentHashStrategy::solvers_hash`: the 64-bit hash of the
concatenated solver ids, used as the cache key. -/
def solvers_hash (hk : String → Nat) (solvers : List SolverInfo) : Nat :=
  hk (String.join (solvers.map (·.id)))

/-- `ConsistentHashStrategy::find_in_ring`: first ring entry with key `≥ hash`
(`ring.range(hash..).next()`), wrapping to the ring's first entry; `none` on
an empty ring. -/
def find_in_ring (ring : List (Nat × Nat)) (hash : Nat) : Option Nat :=
  if ring.isEmpty then none
  else
    match ring.find? (fun p => hash ≤ p.1) with
    | some p => some p.2
    | none => ring.head?.map (·.2)

/-- `ConsistentHashStrategy::get_or_build_ring`: reuse the cached ring when
the solvers hash matches, otherwise build a new ring and publish it in the
cache. Returns the ring together with the updated cache state. -/
def get_or_build_ring (hk : String → Nat) (virtual_nodes : Nat) (st : CHState)
    (solvers : List SolverInfo) : List (Nat × Nat) × CHState :=
  let current_hash := solvers_hash hk solvers
  match st.cache with
  | some (cached_hash, ring) =>
    if cached_hash = current_hash then (ring, st)
    else
      let new_ring := buildRing hk virtual_nodes (solvers.map (·.id))
      (new_ring, ⟨some (current_hash, new_ring)⟩)
  | none =>
    let new_ring := buildRing hk virtual_nodes (solvers.map (·.id))
    (new_ring, ⟨some (current_hash, new_ring)⟩)

/-- `ConsistentHashStrategy::select` with its cache state threaded explicitly:
empty input fails with `NoSolverAvailable`, a single solver short-circuits,
otherwise the ring (cached or rebuilt) is consulted at `hash(routing_key)`.
The final `none` branch models indexing `available[idx]` out of range, which
cannot happen when the cache is consistent with `available` (Rust would
panic there). -/
def ConsistentHashStrategy.select (hk : String → Nat) (virtual_nodes : Nat)
    (st : CHState) (available : List SolverInfo) (routing_key : String) :
    Except RouterError SolverInfo × CHState :=
  match available with
  | [] => (.error .NoSolverAvailable, st)
  | [s] => (.ok s, st)
  | _ =>
    let rs := get_or_build_ring hk virtual_nodes st available
    let hash := hk routing_key
    match find_in_ring rs.1 hash with
    | none => (.error .NoSolverAvailable, rs.2)
    | some idx =>
      match available[idx]? with
      | some s => (.ok s, rs.2)
      | none => (.error .NoSolverAvailable, rs.2)

/-- A cache state is consistent with an id sequence when a cached entry whose
stored hash matches the ids' hash actually holds the ring built from those
ids. Freshly constructed strategies (empty cache) are consistent with every id
sequence, and `select` re-establishes consistency for the ids it was called
with. A violation needs two id sequences whose concatenations hash alike. -/
def CacheConsistent (hk : String → Nat) (virtual_nodes : Nat) (st : CHState)
    (ids : List String) : Prop :=
  ∀ h r, st.cache = some (h, r) → h = hk (String.join ids) →
    r = buildRing hk virtual_nodes ids

/-! ### Pending admission queue (`setu-router/src/pending_queue.rs`) -/

/-- Modelled from the spec: the external `core_types::Transfer` value (its
defining module is not among the sources). Only the fields the queue reads are
carried: the non-empty string `identifier` and the numeric `power` score used
as a priority hint; the remaining payload (sender, recipient, amount,
resources, causality token) is opaque to the queue. -/
structure Transfer where
  id : String
  power : Nat
deriving DecidableEq

/-- `enum PendingQueueError`. -/
inductive PendingQueueError
  | QueueFull (max : Nat)
  | TransferNotFound (id : String)
  | DuplicateTransfer (id : String)
deriving DecidableEq

/-- `pub struct PendingTransfer`: a transfer wrapped with its arrival
timestamp and computed priority. -/
structure PendingTransfer where
  transfer : Transfer
  enqueued_at : Nat
  priority : Nat
deriving DecidableEq

namespace PendingTransfer

/-- `PendingTransfer::new` (the wall-clock reading is passed explicitly);
the priority is the transfer's power score. -/
def new (transfer : Transfer) (now : Nat) : PendingTransfer :=
  { transfer := transfer, enqueued_at := now, priority := transfer.power }

end PendingTransfer

/-- The id → position index (`HashMap<String, usize>`), as an association
list. -/
abbrev QueueIndex := List (String × Nat)

/-- `HashMap::contains_key`. -/
def idxContains (m : QueueIndex) (k : String) : Bool :=
  m.any (fun p => p.1 == k)

/-- `HashMap::insert` (replace any existing binding for the key). -/
def idxInsert (m : QueueIndex) (k : String) (v : Nat) : QueueIndex :=
  (k, v) :: m.filter (fun p => p.1 != k)

/-- `HashMap::remove` (drop the binding for the key). -/
def idxRemove (m : QueueIndex) (k : String) : QueueIndex :=
  m.filter (fun p => p.1 != k)

/-- `pub struct PendingQueue`. -/
structure PendingQueue where
  max_size : Nat
  queue : List PendingTransfer
  index : QueueIndex
deriving DecidableEq

namespace PendingQueue

/-- `PendingQueue::new`. -/
def new (max_size : Nat) : PendingQueue :=
  { max_size := max_size, queue := [], index := [] }

/-- `PendingQueue::rebuild_index`: clear the index, then re-insert every
queued id at its current position. -/
def rebuild_index (queue : List PendingTransfer) : QueueIndex :=
  queue.enum.map (fun p => (p.2.transfer.id, p.1))

/-- `PendingQueue::enqueue`, returning the call's result together with the
post-state (the Rust method mutates `&mut self`): full queues are rejected
first, then duplicate ids, otherwise the entry is appended at the tail and
indexed at its position. -/
def enqueue (q : PendingQueue) (transfer : Transfer) (now : Nat) :
    Except PendingQueueError Unit × PendingQueue :=
  if q.max_size ≤ q.queue.length then
    (.error (.QueueFull q.max_size), q)
  else if idxContains q.index transfer.id then
    (.error (.DuplicateTransfer transfer.id), q)
  else
    let pending := PendingTransfer.new transfer now
    let position := q.queue.length
    (.ok (),
      { q with
          queue := q.queue ++ [pending]
          index := idxInsert q.index transfer.id position })

/-- `PendingQueue::dequeue_next`: pop the FIFO head, drop its index entry and
rebuild the index (the removal is subsumed by the rebuild). -/
def dequeue_next (q : PendingQueue) : Option (Transfer × PendingQueue) :=
  match q.queue with
  | [] => none
  | pending :: rest =>
    some (pending.transfer,
      { q with queue := rest, index := rebuild_index rest })

/-- `PendingQueue::size`. -/
def size (q : PendingQueue) : Nat := q.queue.length

/-- The ids currently queued, in FIFO order (`PendingQueue::pending_ids`). -/
def pending_ids (q : PendingQueue) : List String :=
  q.queue.map (fun p => p.transfer.id)

/-- Well-formedness of reachable queue states: queued ids are pairwise
distinct, every queued id is indexed, and every indexed id is queued. -/
def WF (q : PendingQueue) : Prop :=
  q.pending_ids.Nodup
  ∧ (∀ id ∈ q.pending_ids, idxContains q.index id = true)
  ∧ (∀ p ∈ q.index, p.1 ∈ q.pending_ids)

instance (q : PendingQueue) : Decidable (WF q) := by
  unfold WF
  infer_instance

/-- A batch of enqueues (each paired with its clock reading): `some` final
state when every call succeeds, `none` as soon as one fails. -/
def enqueueAll (q : PendingQueue) : List (Transfer × Nat) → Option PendingQueue
  | [] => some q
  | (t, now) :: rest =>
    match enqueue q t now with
    | (.ok _, q') => enqueueAll q' rest
    | (.error _, _) => none

/-- `n` successive `dequeue_next` calls: the transfers delivered, in order,
and the final state (stopping early if the queue empties). -/
def dequeueN : Nat → PendingQueue → List Transfer × PendingQueue
  | 0, q => ([], q)
  | n + 1, q =>
    match dequeue_next q with
    | none => ([], q)
    | some (t, q') =>
      let r := dequeueN n q'
      (t :: r.1, r.2)

end PendingQueue

/-! ### Concrete fixtures used by witnesses and counterexamples -/

/-- A solver whose last heartbeat (tick 10) is stale at tick 100 for a
30-tick timeout. -/
def staleSolver : SolverInfo :=
  { id := "s1", address := "a1", status := .Online, resource_domains := []
    pending_load := 0, max_capacity := 10, weight := 1, last_heartbeat := some 10 }

/-- A solver freshly heartbeaten at tick 90. -/
def freshSolver : SolverInfo :=
  { id := "s2", address := "a2", status := .Online, resource_domains := []
    pending_load := 0, max_capacity := 10, weight := 1, last_heartbeat := some 90 }

/-- A registry holding the two solvers above, with the default 30-tick
heartbeat timeout. -/
def sampleRegistry : SolverRegistry :=
  { solvers := [staleSolver, freshSolver], heartbeat_timeout := 30 }

/-- Test fixture: the `create_test_solvers` solver 1 with pending load 100
(default capacity 10000 and weight 100). -/
def lbSolver1 : SolverInfo :=
  { SolverInfo.new "solver-1" "127.0.0.1:9001" 0 with pending_load := 100 }

/-- Test fixture: solver 2 with pending load 50, the least loaded. -/
def lbSolver2 : SolverInfo :=
  { SolverInfo.new "solver-2" "127.0.0.1:9002" 0 with pending_load := 50 }

/-- Test fixture: solver 3 with pending load 200. -/
def lbSolver3 : SolverInfo :=
  { SolverInfo.new "solver-3" "127.0.0.1:9003" 0 with pending_load := 200 }

/-- Test fixture: a solver with zero capacity, whose load ratio is exactly 1. -/
def lbZeroCap : SolverInfo :=
  { SolverInfo.new "solver-z" "127.0.0.1:9004" 0 with max_capacity := 0 }

/-- The cache state of a freshly constructed consistent-hash strategy. -/
def freshCH : CHState := ⟨none⟩

/-- A concrete stand-in for the 64-bit truncated blake3 hash, used to
instantiate the abstract hash parameter on concrete inputs. Only the five
strings the scenario touches get distinguished values. -/
def hkCE : String → Nat := fun s =>
  if s = "ab:0" then 10
  else if s = "c:0" then 20
  else if s = "a:0" then 20
  else if s = "bc:0" then 10
  else if s = "k" then 15
  else 0

/-- A default solver with the given id. -/
def solverCE (id : String) : SolverInfo := SolverInfo.new id "127.0.0.1:9100" 0

/-- The cache state of a consistent-hash strategy after one `select` call
with the solver list `["ab", "c"]`: the concatenation of those ids is `"abc"`,
the same byte string as the concatenation of `["a", "bc"]`. -/
def historyCH : CHState :=
  (ConsistentHashStrategy.select hkCE 1 freshCH [solverCE "ab", solverCE "c"] "x").2

/-- The queue state after enqueueing transfers `("a", power 5)` at tick 100
and `("b", power 99)` at tick 101 into a fresh queue of capacity 3. -/
def pendingFixture : PendingQueue :=
  { max_size := 3
    queue := [⟨⟨"a", 5⟩, 100, 5⟩, ⟨⟨"b", 99⟩, 101, 99⟩]
    index := [("b", 1), ("a", 0)] }

/-- Componentwise decidable equality for `Except` results. -/
instance {ε α : Type} [DecidableEq ε] [DecidableEq α] : DecidableEq (Except ε α)
  | .error e, .error e' =>
    if h : e = e' then .isTrue (by rw [h]) else .isFalse (fun hh => h (Except.error.inj hh))
  | .error _, .ok _ => .isFalse Except.noConfusion
  | .ok _, .error _ => .isFalse Except.noConfusion
  | .ok a, .ok a' =>
    if h : a = a' then .isTrue (by rw [h]) else .isFalse (fun hh => h (Except.ok.inj hh))

/-! ## Theorems -/

/-- Folding the `max_by` step from a `some` accumulator yields an element of
the accumulator-plus-list whose key is maximal among them. -/
theorem rust_max_by_go (f : SolverInfo → ℚ) (l : List SolverInfo) :
    ∀ a : SolverInfo,
      ∃ x, List.foldl
          (fun acc y =>
            match acc with
            | none => some y
            | some b => if f y < f b then some b else some y) (some a) l = some x
        ∧ x ∈ a :: l ∧ ∀ y ∈ a :: l, f y ≤ f x := by
  induction l with
  | nil =>
    intro a
    exact ⟨a, rfl, by simp, by simp⟩
  | cons b l' ih =>
    intro a
    by_cases hba : f b < f a
    · obtain ⟨x, hfold, hmem, hle⟩ := ih a
      refine ⟨x, ?_, ?_, ?_⟩
      · simpa [hba] using hfold
      · rcases List.mem_cons.mp hmem with h | h
        · exact h ▸ List.mem_cons_self _ _
        · exact List.mem_cons_of_mem _ (List.mem_cons_of_mem _ h)
      · intro y hy
        rcases List.mem_cons.mp hy with h | hy'
        · exact h ▸ hle a (List.mem_cons_self _ _)
        · rcases List.mem_cons.mp hy' with h | h
          · exact h ▸ (le_of_lt hba).trans (hle a (List.mem_cons_self _ _))
          · exact hle y (List.mem_cons_of_mem _ h)
    · obtain ⟨x, hfold, hmem, hle⟩ := ih b
      refine ⟨x, ?_, ?_, ?_⟩
      · simpa [hba] using hfold
      · rcases List.mem_cons.mp hmem with h | h
        · exact h ▸ List.mem_cons_of_mem _ (List.mem_cons_self _ _)
        · exact List.mem_cons_of_mem _ (List.mem_cons_of_mem _ h)
      · intro y hy
        rcases List.mem_cons.mp hy with h | hy'
        · exact h ▸ (not_lt.mp hba).trans (hle b (List.mem_cons_self _ _))
        · exact hle y hy'

/-- `rust_max_by` on a non-empty list returns a member with maximal key. -/
theorem rust_max_by_spec (f : SolverInfo → ℚ) (l : List SolverInfo) (hl : l ≠ []) :
    ∃ x, rust_max_by f l = some x ∧ x ∈ l ∧ ∀ y ∈ l, f y ≤ f x := by
  match l with
  | [] => exact absurd rfl hl
  | c :: rest =>
    obtain ⟨x, hfold, hmem, hle⟩ := rust_max_by_go f rest c
    exact ⟨x, hfold, hmem, hle⟩

/-- Folding the `min_by` step from a `some` accumulator yields an element of
the accumulator-plus-list whose key is minimal among them. -/
theorem rust_min_by_go (f : SolverInfo → ℚ) (l : List SolverInfo) :
    ∀ a : SolverInfo,
      ∃ x, List.foldl
          (fun acc y =>
            match acc with
            | none => some y
            | some b => if f y < f b then some y else some b) (some a) l = some x
        ∧ x ∈ a :: l ∧ ∀ y ∈ a :: l, f x ≤ f y := by
  induction l with
  | nil =>
    intro a
    exact ⟨a, rfl, by simp, by simp⟩
  | cons b l' ih =>
    intro a
    by_cases hba : f b < f a
    · obtain ⟨x, hfold, hmem, hle⟩ := ih b
      refine ⟨x, ?_, ?_, ?_⟩
      · simpa [hba] using hfold
      · rcases List.mem_cons.mp hmem with h | h
        · exact h ▸ List.mem_cons_of_mem _ (List.mem_cons_self _ _)
        · exact List.mem_cons_of_mem _ (List.mem_cons_of_mem _ h)
      · intro y hy
        rcases List.mem_cons.mp hy with h | hy'
        · exact h ▸ (hle b (List.mem_cons_self _ _)).trans (le_of_lt hba)
        · exact hle y hy'
    · obtain ⟨x, hfold, hmem, hle⟩ := ih a
      refine ⟨x, ?_, ?_, ?_⟩
      · simpa [hba] using hfold
      · rcases List.mem_cons.mp hmem with h | h
        · exact h ▸ List.mem_cons_self _ _
        · exact List.mem_cons_of_mem _ (List.mem_cons_of_mem _ h)
      · intro y hy
        rcases List.mem_cons.mp hy with h | hy'
        · exact h ▸ hle a (List.mem_cons_self _ _)
        · rcases List.mem_cons.mp hy' with h | h
          · exact h ▸ (hle a (List.mem_cons_self _ _)).trans (not_lt.mp hba)
          · exact hle y (List.mem_cons_of_mem _ h)

/-- `rust_min_by` on a non-empty list returns a member with minimal key. -/
theorem rust_min_by_spec (f : SolverInfo → ℚ) (l : List SolverInfo) (hl : l ≠ []) :
    ∃ x, rust_min_by f l = some x ∧ x ∈ l ∧ ∀ y ∈ l, f x ≤ f y := by
  match l with
  | [] => exact absurd rfl hl
  | c :: rest =>
    obtain ⟨x, hfold, hmem, hle⟩ := rust_min_by_go f rest c
    exact ⟨x, hfold, hmem, hle⟩

/-- The timeout sweep never changes an entry's id. -/
theorem check_timeouts_entry_id (timeout now : Nat) (s : SolverInfo) :
    (SolverRegistry.check_timeouts_entry timeout now s).id = s.id := by
  rcases h : s.last_heartbeat with _ | t
  · simp [SolverRegistry.check_timeouts_entry, h]
  · simp only [SolverRegistry.check_timeouts_entry, h]
    split
    · split <;> rfl
    · rfl

/-- A stale entry (heartbeat more than `timeout` ticks in the past) is forced
to `Unknown` by the sweep. -/
theorem check_timeouts_entry_stale (timeout now : Nat) (s : SolverInfo) (t : Nat)
    (hlb : s.last_heartbeat = some t) (hst : timeout < now - t) :
    (SolverRegistry.check_timeouts_entry timeout now s).status = .Unknown := by
  simp only [SolverRegistry.check_timeouts_entry, hlb, if_pos hst]
  split
  · rfl
  · rename_i hne
    simpa [bne_iff_ne] using hne

/-- C7: for every 32-byte object id and every `shard_count > 0`,
`ObjectShardStrategy::route_object` returns the big-endian 16-bit integer
formed from the id's first two bytes reduced modulo `shard_count`, the result
is strictly below `shard_count`, and ids agreeing on their first two bytes map
to the same shard. -/
theorem route_object_spec (shard_count : Nat) (hpos : 0 < shard_count) (oid : ObjectId) :
    (ObjectShardStrategy.with_shard_count shard_count).route_object oid
        = ((oid 0).val * 256 + (oid 1).val) % shard_count
    ∧ (ObjectShardStrategy.with_shard_count shard_count).route_object oid < shard_count
    ∧ (∀ oid' : ObjectId, oid' 0 = oid 0 → oid' 1 = oid 1 →
        (ObjectShardStrategy.with_shard_count shard_count).route_object oid'
          = (ObjectShardStrategy.with_shard_count shard_count).route_object oid) := by
  refine ⟨rfl, Nat.mod_lt _ hpos, ?_⟩
  intro oid' h0 h1
  simp [ObjectShardStrategy.route_object, h0, h1]

/-- Witness for `route_object_spec` at `shard_count = 16` and a concrete id. -/
theorem route_object_spec_witness :
    0 < 16
    ∧ ((ObjectShardStrategy.with_shard_count 16).route_object (mkId 1 5)
          = ((mkId 1 5 0).val * 256 + (mkId 1 5 1).val) % 16
        ∧ (ObjectShardStrategy.with_shard_count 16).route_object (mkId 1 5) < 16
        ∧ (∀ oid' : ObjectId, oid' 0 = mkId 1 5 0 → oid' 1 = mkId 1 5 1 →
            (ObjectShardStrategy.with_shard_count 16).route_object oid'
              = (ObjectShardStrategy.with_shard_count 16).route_object (mkId 1 5))) :=
  ⟨by decide, route_object_spec 16 (by decide) (mkId 1 5)⟩

/-- C8: `is_cross_shard` is `false` on zero or one objects; on a non-empty
list it is `true` exactly when some object routes to a shard different from
the first object's; and any pair whose first-two-byte values differ modulo
`shard_count` is cross-shard. -/
theorem is_cross_shard_spec (s : ObjectShardStrategy) :
    s.is_cross_shard [] = false
    ∧ (∀ a, s.is_cross_shard [a] = false)
    ∧ (∀ (a : ObjectId) (rest : List ObjectId),
        (s.is_cross_shard (a :: rest) = true ↔
          ∃ obj ∈ a :: rest, s.route_object obj ≠ s.route_object a))
    ∧ (∀ a b : ObjectId,
        ((a 0).val * 256 + (a 1).val) % s.shard_count
            ≠ ((b 0).val * 256 + (b 1).val) % s.shard_count →
          s.is_cross_shard [a, b] = true) := by
  refine ⟨rfl, fun a => rfl, ?_, ?_⟩
  · intro a rest
    simp only [ObjectShardStrategy.is_cross_shard, List.any_eq_true, bne_iff_ne, ne_eq]
    constructor
    · rintro ⟨x, hx, hne⟩
      exact ⟨x, List.mem_cons_of_mem _ hx, hne⟩
    · rintro ⟨x, hx, hne⟩
      rcases List.mem_cons.mp hx with h | h
      · exact absurd (h ▸ rfl) hne
      · exact ⟨x, h, hne⟩
  · intro a b hne
    simp only [ObjectShardStrategy.is_cross_shard, List.any_eq_true, bne_iff_ne, ne_eq]
    refine ⟨b, by simp, fun h => hne ?_⟩
    simpa [ObjectShardStrategy.route_object] using h.symm

/-- Witness for `is_cross_shard_spec`: with 16 shards, ids with first bytes
`(0,1)` and `(0,2)` land in different shards, so the pair is cross-shard. -/
theorem is_cross_shard_spec_witness :
    (ObjectShardStrategy.with_shard_count 16).is_cross_shard [mkId 0 1, mkId 0 2] = true :=
  (is_cross_shard_spec (ObjectShardStrategy.with_shard_count 16)).2.2.2
    (mkId 0 1) (mkId 0 2) (by decide)

/-- C1 (amended): contexts built with `with_subnet` or `with_object`,
optionally chained through `with_sender`, have `primary_object` among
`touched_objects`; chaining `with_touched_objects objs` replaces the list
wholesale, so afterwards the invariant holds exactly when `objs` itself
contains the primary object. -/
theorem routing_context_builders_spec :
    (∀ (sid : SubnetId) (p : ObjectId),
      p ∈ (RoutingContext.with_subnet sid p).touched_objects)
    ∧ (∀ p : ObjectId, p ∈ (RoutingContext.with_object p).touched_objects)
    ∧ (∀ (ctx : RoutingContext) (s : ObjectId),
        (ctx.with_sender s).touched_objects = ctx.touched_objects
        ∧ (ctx.with_sender s).primary_object = ctx.primary_object)
    ∧ (∀ (ctx : RoutingContext) (objs : List ObjectId),
        ((ctx.with_touched_objects objs).primary_object
            ∈ (ctx.with_touched_objects objs).touched_objects
          ↔ ctx.primary_object ∈ objs)) := by
  refine ⟨?_, ?_, ?_, ?_⟩
  · intro sid p
    simp [RoutingContext.with_subnet]
  · intro p
    simp [RoutingContext.with_object]
  · intro ctx s
    exact ⟨rfl, rfl⟩
  · intro ctx objs
    simp [RoutingContext.with_touched_objects]

/-- Counterexample to C1 as stated: a context built with `with_object` and
then `with_touched_objects` with a list omitting the primary object does not
contain its primary object among `touched_objects`. -/
theorem routing_context_invariant_counterexample :
    ¬ ((RoutingContext.with_object (mkId 0 0)).with_touched_objects
          [mkId 0 1]).primary_object
        ∈ ((RoutingContext.with_object (mkId 0 0)).with_touched_objects
          [mkId 0 1]).touched_objects := by
  intro h
  simp only [RoutingContext.with_object, RoutingContext.with_touched_objects,
    List.mem_singleton] at h
  have h1 := congrFun h 1
  simp only [mkId] at h1
  exact absurd h1 (by decide)

/-- C6: `get_available` first applies the timeout sweep to every entry and
then returns exactly the swept entries that are `Online` and strictly below
capacity; consequently (for the registry's duplicate-free id table) no solver
whose last heartbeat is more than `heartbeat_timeout` ticks old appears in the
result, whatever its previous status. -/
theorem registry_get_available_spec (reg : SolverRegistry) (now : Nat)
    (hnodup : (reg.solvers.map (·.id)).Nodup) :
    (∀ s : SolverInfo,
      s ∈ reg.get_available now ↔
        ∃ e ∈ reg.solvers,
          SolverRegistry.check_timeouts_entry reg.heartbeat_timeout now e = s
          ∧ s.status = .Online ∧ s.pending_load < s.max_capacity)
    ∧ (∀ e ∈ reg.solvers, ∀ t : Nat, e.last_heartbeat = some t →
        reg.heartbeat_timeout < now - t →
          ∀ s ∈ reg.get_available now, s.id ≠ e.id) := by
  have hmem : ∀ s : SolverInfo,
      s ∈ reg.get_available now ↔
        (∃ e ∈ reg.solvers,
          SolverRegistry.check_timeouts_entry reg.heartbeat_timeout now e = s)
        ∧ (s.status = .Online ∧ s.pending_load < s.max_capacity) := by
    intro s
    simp [SolverRegistry.get_available, SolverRegistry.check_timeouts,
      List.mem_filter, List.mem_map, SolverInfo.is_available,
      Bool.and_eq_true, beq_iff_eq, decide_eq_true_eq]
  refine ⟨?_, ?_⟩
  · intro s
    rw [hmem]
    constructor
    · rintro ⟨⟨e, he, hse⟩, hon, hload⟩
      exact ⟨e, he, hse, hon, hload⟩
    · rintro ⟨e, he, hse, hon, hload⟩
      exact ⟨⟨e, he, hse⟩, hon, hload⟩
  · intro e he t hlb hstale s hs hid
    rcases (hmem s).mp hs with ⟨⟨e', he', hse'⟩, hon, _⟩
    have hid' : e'.id = e.id := by
      rw [← check_timeouts_entry_id reg.heartbeat_timeout now e', hse', hid]
    have heq : e' = e := List.inj_on_of_nodup_map hnodup he' he hid'
    subst heq
    rw [← hse'] at hon
    rw [check_timeouts_entry_stale _ _ _ _ hlb hstale] at hon
    exact SolverStatus.noConfusion hon

/-- Witness for `registry_get_available_spec`: in the sample registry at tick
100 the fresh solver is returned, so — since the stale solver is excluded —
its id differs from the stale solver's. -/
theorem registry_get_available_spec_witness :
    freshSolver.id ≠ staleSolver.id :=
  (registry_get_available_spec sampleRegistry 100 (by decide)).2
    staleSolver (by decide) 10 rfl (by decide) freshSolver (by decide)

/-- C9: `LoadBalancedStrategy::select` ignores the routing key; when some
solver sits strictly below the load threshold it returns a below-threshold
candidate maximizing `(1 - load_ratio) * weight`, otherwise a solver of
globally minimal `load_ratio`; and on the three equal-capacity solvers with
loads 100, 50, 200 it returns the solver with load 50. -/
theorem lb_select_spec :
    (∀ (th : ℚ) (available : List SolverInfo) (k1 k2 : String),
      LoadBalancedStrategy.select th available k1
        = LoadBalancedStrategy.select th available k2)
    ∧ (∀ (th : ℚ) (available : List SolverInfo) (k : String),
        available.filter (fun s => s.load_ratio < th) ≠ [] →
          ∃ x, LoadBalancedStrategy.select th available k = .ok x
            ∧ x ∈ available.filter (fun s => s.load_ratio < th)
            ∧ ∀ c ∈ available.filter (fun s => s.load_ratio < th), lbScore c ≤ lbScore x)
    ∧ (∀ (th : ℚ) (available : List SolverInfo) (k : String),
        available ≠ [] → available.filter (fun s => s.load_ratio < th) = [] →
          ∃ x, LoadBalancedStrategy.select th available k = .ok x
            ∧ x ∈ available ∧ ∀ c ∈ available, x.load_ratio ≤ c.load_ratio)
    ∧ LoadBalancedStrategy.select (9 / 10) [lbSolver1, lbSolver2, lbSolver3] "any"
        = .ok lbSolver2 := by
  refine ⟨fun th available k1 k2 => rfl, ?_, ?_, ?_⟩
  · intro th available k hcand
    have havail : available ≠ [] := fun h => hcand (by simp [h])
    obtain ⟨c, rest, rfl⟩ := List.exists_cons_of_ne_nil havail
    obtain ⟨x, hmax, hmem, hle⟩ := rust_max_by_spec lbScore _ hcand
    refine ⟨x, ?_, hmem, hle⟩
    obtain ⟨d, ds, hfil⟩ := List.exists_cons_of_ne_nil hcand
    rw [hfil] at hmax
    simp [LoadBalancedStrategy.select, hfil, hmax]
  · intro th available k havail hcand
    obtain ⟨c, rest, rfl⟩ := List.exists_cons_of_ne_nil havail
    obtain ⟨x, hmin, hmem, hle⟩ := rust_min_by_spec SolverInfo.load_ratio _ havail
    refine ⟨x, ?_, hmem, hle⟩
    simp [LoadBalancedStrategy.select, hcand, hmin]
  · norm_num [LoadBalancedStrategy.select, lbSolver1, lbSolver2, lbSolver3, SolverInfo.new,
      SolverInfo.load_ratio, lbScore, rust_max_by, List.filter]

/-- Witness for `lb_select_spec`: the zero-capacity solver has load ratio 1,
which sits below a threshold of 2, so it is a below-threshold candidate. -/
theorem lb_select_spec_witness :
    ∃ x, LoadBalancedStrategy.select 2 [lbZeroCap] "any" = .ok x
      ∧ x ∈ [lbZeroCap].filter (fun s => s.load_ratio < 2)
      ∧ ∀ c ∈ [lbZeroCap].filter (fun s => s.load_ratio < 2),
          lbScore c ≤ lbScore x :=
  lb_select_spec.2.1 2 [lbZeroCap] "any" (by decide)

/-- `ringInsert` never produces an empty ring. -/
theorem ringInsert_ne_nil (r : List (Nat × Nat)) (k v : Nat) : ringInsert r k v ≠ [] := by
  match r with
  | [] => simp [ringInsert]
  | (k', v') :: rest =>
    simp only [ringInsert]
    split
    · simp
    · split <;> simp

/-- Members of `ringInsert r k v` are the new point or members of `r`. -/
theorem mem_ringInsert (r : List (Nat × Nat)) (k v : Nat) (p : Nat × Nat)
    (hp : p ∈ ringInsert r k v) : p = (k, v) ∨ p ∈ r := by
  induction r with
  | nil => simpa [ringInsert] using hp
  | cons q rest ih =>
    simp only [ringInsert] at hp
    split at hp
    · rcases List.mem_cons.mp hp with h | h
      · exact Or.inl h
      · exact Or.inr h
    · split at hp
      · rcases List.mem_cons.mp hp with h | h
        · exact Or.inl h
        · exact Or.inr (List.mem_cons_of_mem _ h)
      · rcases List.mem_cons.mp hp with h | h
        · exact Or.inr (h ▸ List.mem_cons_self _ _)
        · rcases ih h with h' | h'
          · exact Or.inl h'
          · exact Or.inr (List.mem_cons_of_mem _ h')

/-- Members of the inner virtual-node fold are new points at index `idx` or
members of the starting ring. -/
theorem mem_foldl_ringInsert (g : Nat → Nat) (idx : Nat) (l : List Nat) :
    ∀ (r : List (Nat × Nat)) (p : Nat × Nat),
      p ∈ l.foldl (fun r vn => ringInsert r (g vn) idx) r → p.2 = idx ∨ p ∈ r := by
  induction l with
  | nil =>
    intro r p hp
    exact Or.inr hp
  | cons a l' ih =>
    intro r p hp
    rcases ih _ p hp with h | h
    · exact Or.inl h
    · rcases mem_ringInsert _ _ _ _ h with h' | h'
      · exact Or.inl (by rw [h'])
      · exact Or.inr h'

/-- The inner virtual-node fold preserves (or establishes) non-emptiness. -/
theorem foldl_ringInsert_ne_nil (g : Nat → Nat) (idx : Nat) (l : List Nat) :
    ∀ r : List (Nat × Nat), l ≠ [] ∨ r ≠ [] →
      l.foldl (fun r vn => ringInsert r (g vn) idx) r ≠ [] := by
  induction l with
  | nil =>
    intro r h
    rcases h with h | h
    · exact absurd rfl h
    · exact h
  | cons a l' ih =>
    intro r _
    exact ih _ (Or.inr (ringInsert_ne_nil _ _ _))

/-- Every ring entry produced by `buildRingAux` is inherited from the
accumulator or carries a solver index in `[idx, idx + ids.length)`. -/
theorem mem_buildRingAux (hk : String → Nat) (vn : Nat) (ids : List String) :
    ∀ (idx : Nat) (r : List (Nat × Nat)) (p : Nat × Nat),
      p ∈ buildRingAux hk vn ids idx r →
        p ∈ r ∨ (idx ≤ p.2 ∧ p.2 < idx + ids.length) := by
  induction ids with
  | nil =>
    intro idx r p hp
    exact Or.inl hp
  | cons id rest ih =>
    intro idx r p hp
    rcases ih (idx + 1) _ p hp with h | h
    · rcases mem_foldl_ringInsert _ idx _ _ _ h with h' | h'
      · right
        simp only [List.length_cons]
        omega
      · exact Or.inl h'
    · right
      simp only [List.length_cons]
      omega

/-- Every solver index stored in a freshly built ring is a valid index into
the id list. -/
theorem buildRing_index_lt (hk : String → Nat) (vn : Nat) (ids : List String)
    (p : Nat × Nat) (hp : p ∈ buildRing hk vn ids) : p.2 < ids.length := by
  rcases mem_buildRingAux hk vn ids 0 [] p hp with h | h
  · exact absurd h (List.not_mem_nil p)
  · omega

/-- With at least one virtual node and at least one solver, the built ring is
non-empty. -/
theorem buildRing_ne_nil (hk : String → Nat) (vn : Nat) (ids : List String)
    (hids : ids ≠ []) (hvn : 1 ≤ vn) : buildRing hk vn ids ≠ [] := by
  have key : ∀ (l : List String) (idx : Nat) (r : List (Nat × Nat)),
      l ≠ [] ∨ r ≠ [] → buildRingAux hk vn l idx r ≠ [] := by
    intro l
    induction l with
    | nil =>
      intro idx r h
      rcases h with h | h
      · exact absurd rfl h
      · exact h
    | cons id rest ih =>
      intro idx r _
      refine ih _ _ (Or.inr ?_)
      refine foldl_ringInsert_ne_nil _ idx _ _ (Or.inl ?_)
      have : vn ≠ 0 := Nat.pos_iff_ne_zero.mp hvn
      simp [List.range_eq_nil, this]
  exact key ids 0 [] (Or.inl hids)

/-- `find_in_ring` on a non-empty ring finds some stored solver index. -/
theorem find_in_ring_mem (ring : List (Nat × Nat)) (hash : Nat) (hne : ring ≠ []) :
    ∃ idx, find_in_ring ring hash = some idx ∧ ∃ p ∈ ring, p.2 = idx := by
  obtain ⟨q, rest, rfl⟩ := List.exists_cons_of_ne_nil hne
  simp only [find_in_ring, List.isEmpty_cons, Bool.false_eq_true, if_false]
  rcases hf : (q :: rest).find? (fun p => hash ≤ p.1) with _ | p
  · exact ⟨q.2, by rw [hf]; rfl, q, List.mem_cons_self _ _, rfl⟩
  · exact ⟨p.2, by rw [hf], p, List.mem_of_find?_eq_some hf, rfl⟩

/-- A fresh (empty) cache is consistent with every id sequence. -/
theorem freshCH_consistent (hk : String → Nat) (vn : Nat) (ids : List String) :
    CacheConsistent hk vn freshCH ids :=
  fun _ _ hc => Option.noConfusion hc

/-- Under a consistent cache, `get_or_build_ring` always hands back the ring
built from the current id sequence (cached copy or fresh build). -/
theorem get_or_build_ring_fst (hk : String → Nat) (vn : Nat) (st : CHState)
    (solvers : List SolverInfo) (hcc : CacheConsistent hk vn st (solvers.map (·.id))) :
    (get_or_build_ring hk vn st solvers).1 = buildRing hk vn (solvers.map (·.id)) := by
  rcases hc : st.cache with _ | ⟨h, r⟩
  · simp [get_or_build_ring, hc]
  · by_cases hh : h = solvers_hash hk solvers
    · have hr : r = buildRing hk vn (solvers.map (·.id)) := hcc h r hc hh
      simp [get_or_build_ring, hc, hh, hr]
    · simp [get_or_build_ring, hc, hh]

/-- `get_or_build_ring` leaves the cache consistent with the ids it served. -/
theorem get_or_build_ring_snd_consistent (hk : String → Nat) (vn : Nat) (st : CHState)
    (solvers : List SolverInfo) (hcc : CacheConsistent hk vn st (solvers.map (·.id))) :
    CacheConsistent hk vn (get_or_build_ring hk vn st solvers).2 (solvers.map (·.id)) := by
  rcases hc : st.cache with _ | ⟨h, r⟩
  · intro h' r' hc' hh'
    simp [get_or_build_ring, hc] at hc'
    exact hc'.2.symm
  · by_cases hh : h = solvers_hash hk solvers
    · intro h' r' hc' hh'
      simp only [get_or_build_ring, hc, if_pos hh] at hc'
      exact hcc h' r' (hc ▸ hc') hh'
    · intro h' r' hc' hh'
      simp [get_or_build_ring, hc, hh] at hc'
      exact hc'.2.symm

/-- Under a consistent cache, cached selection returns the same result as a
freshly constructed strategy. -/
theorem ch_select_fst_eq (hk : String → Nat) (vn : Nat) (st : CHState)
    (S : List SolverInfo) (k : String) (hcc : CacheConsistent hk vn st (S.map (·.id))) :
    (ConsistentHashStrategy.select hk vn st S k).1
      = (ConsistentHashStrategy.select hk vn freshCH S k).1 := by
  match S with
  | [] => rfl
  | [s] => rfl
  | a :: b :: T =>
    have h1 : (get_or_build_ring hk vn st (a :: b :: T)).1
        = buildRing hk vn (a.id :: b.id :: T.map (·.id)) := by
      simpa using get_or_build_ring_fst hk vn st _ hcc
    have h2 : (get_or_build_ring hk vn freshCH (a :: b :: T)).1
        = buildRing hk vn (a.id :: b.id :: T.map (·.id)) := by
      simpa using get_or_build_ring_fst hk vn freshCH _ (freshCH_consistent hk vn _)
    rcases hf : find_in_ring (buildRing hk vn (a.id :: b.id :: T.map (·.id))) (hk k) with _ | idx
    · simp [ConsistentHashStrategy.select, h1, h2, hf]
    · rcases hg : (a :: b :: T)[idx]? with _ | s
      · simp [ConsistentHashStrategy.select, h1, h2, hf, hg]
      · simp [ConsistentHashStrategy.select, h1, h2, hf, hg]

/-- Cached selection leaves the cache consistent with the ids it served. -/
theorem ch_select_snd_consistent (hk : String → Nat) (vn : Nat) (st : CHState)
    (S : List SolverInfo) (k : String) (hcc : CacheConsistent hk vn st (S.map (·.id))) :
    CacheConsistent hk vn (ConsistentHashStrategy.select hk vn st S k).2 (S.map (·.id)) := by
  match S with
  | [] => exact hcc
  | [s] => exact hcc
  | a :: b :: T =>
    have hcons := get_or_build_ring_snd_consistent hk vn st (a :: b :: T) hcc
    rcases hf : find_in_ring (get_or_build_ring hk vn st (a :: b :: T)).1 (hk k) with _ | idx
    · simpa [ConsistentHashStrategy.select, hf] using hcons
    · rcases hg : (a :: b :: T)[idx]? with _ | s
      · simpa [ConsistentHashStrategy.select, hf, hg] using hcons
      · simpa [ConsistentHashStrategy.select, hf, hg] using hcons

/-- With at least one virtual node and a consistent cache, selection from a
non-empty solver list returns a member of the list. -/
theorem ch_select_mem (hk : String → Nat) (vn : Nat) (st : CHState)
    (S : List SolverInfo) (k : String) (hS : S ≠ []) (hvn : 1 ≤ vn)
    (hcc : CacheConsistent hk vn st (S.map (·.id))) :
    ∃ s ∈ S, (ConsistentHashStrategy.select hk vn st S k).1 = .ok s := by
  match S with
  | [] => exact absurd rfl hS
  | [s] => exact ⟨s, List.mem_cons_self _ _, rfl⟩
  | a :: b :: T =>
    have h1 : (get_or_build_ring hk vn st (a :: b :: T)).1
        = buildRing hk vn (a.id :: b.id :: T.map (·.id)) := by
      simpa using get_or_build_ring_fst hk vn st _ hcc
    have hring : buildRing hk vn (a.id :: b.id :: T.map (·.id)) ≠ [] :=
      buildRing_ne_nil hk vn _ (by simp) hvn
    obtain ⟨idx, hfind, p, hp, hpidx⟩ := find_in_ring_mem _ (hk k) hring
    have hidx : idx < (a :: b :: T).length := by
      have := buildRing_index_lt hk vn _ p hp
      simp only [List.length_cons, List.length_map] at this ⊢
      omega
    have hget : (a :: b :: T)[idx]? = some ((a :: b :: T)[idx]) :=
      List.getElem?_eq_getElem hidx
    refine ⟨(a :: b :: T)[idx], List.getElem_mem hidx, ?_⟩
    simp [ConsistentHashStrategy.select, h1, hfind, hget]

/-- Mapping selection through the id projection depends only on the id
sequence for freshly constructed strategies. -/
theorem ch_select_fresh_map_id (hk : String → Nat) (vn : Nat) (k : String) :
    ∀ S S' : List SolverInfo, S.map (·.id) = S'.map (·.id) →
      Except.map (·.id) (ConsistentHashStrategy.select hk vn freshCH S k).1
        = Except.map (·.id) (ConsistentHashStrategy.select hk vn freshCH S' k).1 := by
  intro S S' hids
  match S, S' with
  | [], [] => rfl
  | [], _ :: _ => simp at hids
  | _ :: _, [] => simp at hids
  | [s], [s'] =>
    simp only [List.map_cons, List.map_nil, List.cons.injEq, and_true] at hids
    simp [ConsistentHashStrategy.select, Except.map, hids]
  | [s], _ :: _ :: _ => simp at hids
  | _ :: _ :: _, [s'] => simp at hids
  | a :: b :: T, a' :: b' :: T' =>
    have hids' : a.id :: b.id :: T.map (·.id) = a'.id :: b'.id :: T'.map (·.id) := by
      simpa using hids
    have h1 : (get_or_build_ring hk vn freshCH (a :: b :: T)).1
        = buildRing hk vn (a.id :: b.id :: T.map (·.id)) := by
      simpa using get_or_build_ring_fst hk vn freshCH _ (freshCH_consistent hk vn _)
    have h2 : (get_or_build_ring hk vn freshCH (a' :: b' :: T')).1
        = buildRing hk vn (a'.id :: b'.id :: T'.map (·.id)) := by
      simpa using get_or_build_ring_fst hk vn freshCH _ (freshCH_consistent hk vn _)
    rcases hf : find_in_ring (buildRing hk vn (a.id :: b.id :: T.map (·.id))) (hk k) with _ | idx
    · have hf2 : find_in_ring (buildRing hk vn (a'.id :: b'.id :: T'.map (·.id))) (hk k)
          = none := by
        rw [← hids']
        exact hf
      simp [ConsistentHashStrategy.select, h1, h2, hf, hf2]
    · have hf2 : find_in_ring (buildRing hk vn (a'.id :: b'.id :: T'.map (·.id))) (hk k)
          = some idx := by
        rw [← hids']
        exact hf
      have hgl : ((a :: b :: T)[idx]?).map (·.id) = ((a' :: b' :: T')[idx]?).map (·.id) := by
        rw [← List.getElem?_map, ← List.getElem?_map, hids]
      rcases hga : (a :: b :: T)[idx]? with _ | s <;>
        rcases hgb : (a' :: b' :: T')[idx]? with _ | s'
      · simp [ConsistentHashStrategy.select, h1, h2, hf, hf2, hga, hgb]
      · rw [hga, hgb] at hgl
        exact absurd hgl (by simp)
      · rw [hga, hgb] at hgl
        exact absurd hgl (by simp)
      · rw [hga, hgb] at hgl
        simp at hgl
        simp [ConsistentHashStrategy.select, h1, h2, hf, hf2, hga, hgb, Except.map, hgl]

/-- C3 (amended): provided the strategy's cache is consistent with the passed
solver list's id sequence (true for freshly constructed instances, and
re-established by every call for that same id sequence; violable only through
an earlier call whose id concatenation collides with this one's), consistent
hashing is deterministic: the cached call equals the fresh call, an immediate
repeat call on the updated instance returns the same result, and through the
id projection the result is a pure function of the ordered id sequence, the
key and the virtual-node count — load and status fields are irrelevant. -/
theorem ch_select_deterministic (hk : String → Nat) (vn : Nat) (st : CHState)
    (S : List SolverInfo) (k : String)
    (hcc : CacheConsistent hk vn st (S.map (·.id))) :
    (ConsistentHashStrategy.select hk vn st S k).1
        = (ConsistentHashStrategy.select hk vn freshCH S k).1
    ∧ (ConsistentHashStrategy.select hk vn
          (ConsistentHashStrategy.select hk vn st S k).2 S k).1
        = (ConsistentHashStrategy.select hk vn st S k).1
    ∧ (∀ S' : List SolverInfo, S'.map (·.id) = S.map (·.id) →
        Except.map (·.id) (ConsistentHashStrategy.select hk vn freshCH S' k).1
          = Except.map (·.id) (ConsistentHashStrategy.select hk vn st S k).1) := by
  have pt1 := ch_select_fst_eq hk vn st S k hcc
  have hcons := ch_select_snd_consistent hk vn st S k hcc
  have pt2 := (ch_select_fst_eq hk vn _ S k hcons).trans pt1.symm
  refine ⟨pt1, pt2, ?_⟩
  intro S' hids
  have hmap := ch_select_fresh_map_id hk vn k S' S hids
  rw [pt1]
  exact hmap

/-- Witness for `ch_select_deterministic` on a fresh two-solver instance. -/
theorem ch_select_deterministic_witness :
    (ConsistentHashStrategy.select hkCE 1 freshCH [solverCE "a", solverCE "bc"] "k").1
        = (ConsistentHashStrategy.select hkCE 1 freshCH [solverCE "a", solverCE "bc"] "k").1
    ∧ (ConsistentHashStrategy.select hkCE 1
          (ConsistentHashStrategy.select hkCE 1 freshCH [solverCE "a", solverCE "bc"] "k").2
          [solverCE "a", solverCE "bc"] "k").1
        = (ConsistentHashStrategy.select hkCE 1 freshCH [solverCE "a", solverCE "bc"] "k").1
    ∧ (∀ S' : List SolverInfo,
        S'.map (·.id) = [solverCE "a", solverCE "bc"].map (·.id) →
        Except.map (·.id) (ConsistentHashStrategy.select hkCE 1 freshCH S' "k").1
          = Except.map (·.id)
              (ConsistentHashStrategy.select hkCE 1 freshCH [solverCE "a", solverCE "bc"] "k").1) :=
  ch_select_deterministic hkCE 1 freshCH [solverCE "a", solverCE "bc"] "k"
    (fun _ _ hc => Option.noConfusion hc)

/-- Counterexample to C3 as stated: two calls to `select` with the same solver
list, key and virtual-node count can return different solvers — one call on a
fresh instance, the other on an instance whose cache stems from an earlier
call with ids `["ab", "c"]`, whose concatenation `"abc"` equals that of the
current ids `["a", "bc"]`, so the stale ring is reused whatever the hash
function is. -/
theorem ch_select_history_counterexample :
    (ConsistentHashStrategy.select hkCE 1 historyCH [solverCE "a", solverCE "bc"] "k").1
      ≠ (ConsistentHashStrategy.select hkCE 1 freshCH [solverCE "a", solverCE "bc"] "k").1 := by
  decide

/-- C2 (amended): both selection strategies fail with `NoSolverAvailable`
exactly on an empty candidate list; on non-empty lists the load-balanced
strategy always returns a member of the list, and the consistent-hash strategy
does so provided it is configured with at least one virtual node and its cache
is consistent with the list (with zero virtual nodes the ring is empty and
even a non-empty list yields `NoSolverAvailable`). -/
theorem select_no_solver_spec :
    (∀ (hk : String → Nat) (vn : Nat) (st : CHState) (k : String),
      (ConsistentHashStrategy.select hk vn st [] k).1 = .error .NoSolverAvailable)
    ∧ (∀ (th : ℚ) (k : String),
        LoadBalancedStrategy.select th [] k = .error .NoSolverAvailable)
    ∧ (∀ (hk : String → Nat) (vn : Nat) (st : CHState) (S : List SolverInfo) (k : String),
        S ≠ [] → 1 ≤ vn → CacheConsistent hk vn st (S.map (·.id)) →
          ∃ s ∈ S, (ConsistentHashStrategy.select hk vn st S k).1 = .ok s)
    ∧ (∀ (th : ℚ) (S : List SolverInfo) (k : String), S ≠ [] →
        ∃ s ∈ S, LoadBalancedStrategy.select th S k = .ok s) := by
  refine ⟨fun hk vn st k => rfl, fun th k => rfl, ?_, ?_⟩
  · intro hk vn st S k hS hvn hcc
    exact ch_select_mem hk vn st S k hS hvn hcc
  · intro th S k hS
    by_cases hcand : S.filter (fun s => s.load_ratio < th) = []
    · obtain ⟨c, rest, rfl⟩ := List.exists_cons_of_ne_nil hS
      obtain ⟨x, hmin, hmem, _⟩ := rust_min_by_spec SolverInfo.load_ratio _ hS
      refine ⟨x, hmem, ?_⟩
      simp [LoadBalancedStrategy.select, hcand, hmin]
    · obtain ⟨x, hmax, hmem, _⟩ := rust_max_by_spec lbScore _ hcand
      obtain ⟨c, rest, rfl⟩ := List.exists_cons_of_ne_nil hS
      refine ⟨x, List.mem_of_mem_filter hmem, ?_⟩
      obtain ⟨d, ds, hfil⟩ := List.exists_cons_of_ne_nil hcand
      rw [hfil] at hmax
      simp [LoadBalancedStrategy.select, hfil, hmax]

/-- Witness for `select_no_solver_spec`: a fresh two-solver consistent-hash
instance with one virtual node returns a member of the list. -/
theorem select_no_solver_spec_witness :
    ∃ s ∈ ([solverCE "a", solverCE "bc"] : List SolverInfo),
      (ConsistentHashStrategy.select hkCE 1 freshCH [solverCE "a", solverCE "bc"] "k").1
        = .ok s :=
  select_no_solver_spec.2.2.1 hkCE 1 freshCH [solverCE "a", solverCE "bc"] "k"
    (by simp) (by decide) (fun _ _ hc => Option.noConfusion hc)

/-- Counterexample to C2 as stated: a consistent-hash strategy configured with
zero virtual nodes builds an empty ring, so `select` returns
`NoSolverAvailable` even for a non-empty two-solver list. -/
theorem ch_select_zero_vn_counterexample :
    ([solverCE "a", solverCE "bc"] : List SolverInfo) ≠ []
    ∧ (ConsistentHashStrategy.select hkCE 0 freshCH [solverCE "a", solverCE "bc"] "k").1
        = .error .NoSolverAvailable :=
  ⟨by simp, rfl⟩

/-- Case analysis of `enqueue`: full-queue rejection, duplicate rejection, or
append at the tail; the full-queue check runs first. -/
theorem enqueue_cases (q : PendingQueue) (t : Transfer) (now : Nat) :
    (q.max_size ≤ q.queue.length
      ∧ q.enqueue t now = (.error (.QueueFull q.max_size), q))
    ∨ (q.queue.length < q.max_size ∧ idxContains q.index t.id = true
      ∧ q.enqueue t now = (.error (.DuplicateTransfer t.id), q))
    ∨ (q.queue.length < q.max_size ∧ idxContains q.index t.id = false
      ∧ q.enqueue t now = (.ok (),
          { q with
              queue := q.queue ++ [PendingTransfer.new t now]
              index := idxInsert q.index t.id q.queue.length })) := by
  by_cases h1 : q.max_size ≤ q.queue.length
  · exact Or.inl ⟨h1, by simp [PendingQueue.enqueue, h1]⟩
  · by_cases h2 : idxContains q.index t.id
    · exact Or.inr (Or.inl ⟨not_le.mp h1, h2, by simp [PendingQueue.enqueue, h1, h2]⟩)
    · exact Or.inr (Or.inr ⟨not_le.mp h1, by simpa using h2,
        by simp [PendingQueue.enqueue, h1, h2]⟩)

/-- A successful batch of enqueues appends the wrapped transfers, in order, to
the tail of the queue. -/
theorem enqueueAll_queue :
    ∀ (ts : List (Transfer × Nat)) (q st : PendingQueue),
      PendingQueue.enqueueAll q ts = some st →
      st.queue = q.queue ++ ts.map (fun p => PendingTransfer.new p.1 p.2) := by
  intro ts
  induction ts with
  | nil =>
    intro q st h
    simp only [PendingQueue.enqueueAll, Option.some.injEq] at h
    simp [← h]
  | cons p rest ih =>
    intro q st h
    obtain ⟨t, now⟩ := p
    rcases enqueue_cases q t now with ⟨_, he⟩ | ⟨_, _, he⟩ | ⟨_, _, he⟩
    · rw [PendingQueue.enqueueAll, he] at h
      exact Option.noConfusion h
    · rw [PendingQueue.enqueueAll, he] at h
      exact Option.noConfusion h
    · rw [PendingQueue.enqueueAll, he] at h
      have := ih _ _ h
      simp only [this]
      simp

/-- Draining a queue with exactly as many `dequeue_next` calls as it has
entries returns the queued transfers in order and leaves the queue empty. -/
theorem dequeueN_drain :
    ∀ (n : Nat) (q : PendingQueue), q.queue.length = n →
      (PendingQueue.dequeueN n q).1 = q.queue.map (·.transfer)
      ∧ ((PendingQueue.dequeueN n q).2).queue = [] := by
  intro n
  induction n with
  | zero =>
    intro q hq
    have : q.queue = [] := List.length_eq_zero.mp hq
    simp [PendingQueue.dequeueN, this]
  | succ n ih =>
    intro q hq
    rcases hqq : q.queue with _ | ⟨p, rest⟩
    · rw [hqq] at hq
      simp at hq
    · have hd : q.dequeue_next = some (p.transfer,
          { q with queue := rest, index := PendingQueue.rebuild_index rest }) := by
        simp [PendingQueue.dequeue_next, hqq]
      have hrest :
          ({ q with queue := rest, index := PendingQueue.rebuild_index rest } :
            PendingQueue).queue.length = n := by
        rw [hqq] at hq
        simpa using hq
      obtain ⟨ih1, ih2⟩ := ih _ hrest
      constructor
      · simp [PendingQueue.dequeueN, hd, ih1, hqq]
      · simp [PendingQueue.dequeueN, hd, ih2]

/-- C4: starting from an empty queue, after `n` successful enqueues (no
intervening removals) the `n` successive `dequeue_next` calls deliver exactly
the enqueued transfers in arrival order — whatever their power scores — and
one further `dequeue_next` on the now-empty queue returns `none`. -/
theorem pending_queue_fifo (max : Nat) (ts : List (Transfer × Nat)) (st : PendingQueue)
    (h : PendingQueue.enqueueAll (PendingQueue.new max) ts = some st) :
    (PendingQueue.dequeueN ts.length st).1 = ts.map (·.1)
    ∧ PendingQueue.dequeue_next (PendingQueue.dequeueN ts.length st).2 = none := by
  have hqueue : st.queue = ts.map (fun p => PendingTransfer.new p.1 p.2) := by
    simpa using enqueueAll_queue ts (PendingQueue.new max) st h
  have hlen : st.queue.length = ts.length := by simp [hqueue]
  obtain ⟨h1, h2⟩ := dequeueN_drain ts.length st hlen
  refine ⟨?_, ?_⟩
  · rw [h1, hqueue, List.map_map]
    simp [Function.comp, PendingTransfer.new]
  · simp [PendingQueue.dequeue_next, h2]

/-- Witness for `pending_queue_fifo`: two transfers whose priorities are out
of FIFO order are still delivered in arrival order. -/
theorem pending_queue_fifo_witness :
    (PendingQueue.dequeueN 2 pendingFixture).1
        = [Transfer.mk "a" 5, Transfer.mk "b" 99]
    ∧ PendingQueue.dequeue_next (PendingQueue.dequeueN 2 pendingFixture).2 = none :=
  pending_queue_fifo 3 [(Transfer.mk "a" 5, 100), (Transfer.mk "b" 99, 101)]
    pendingFixture (by decide)

/-- Under well-formedness, the index lookup agrees with queue membership. -/
theorem idxContains_iff_mem (q : PendingQueue) (hwf : PendingQueue.WF q) (id : String) :
    idxContains q.index id = true ↔ id ∈ q.pending_ids := by
  constructor
  · intro h
    rw [idxContains, List.any_eq_true] at h
    obtain ⟨p, hp, hpe⟩ := h
    rw [beq_iff_eq] at hpe
    exact hpe ▸ hwf.2.2 p hp
  · intro h
    exact hwf.2.1 id h

/-- The inserted key is found by the index lookup. -/
theorem idxContains_insert_self (m : QueueIndex) (k : String) (v : Nat) :
    idxContains (idxInsert m k v) k = true := by
  simp [idxContains, idxInsert]

/-- Keys other than the inserted one keep their lookup result. -/
theorem idxContains_insert_of (m : QueueIndex) (k : String) (v : Nat) (id : String)
    (h : idxContains m id = true) (hne : id ≠ k) :
    idxContains (idxInsert m k v) id = true := by
  rw [idxContains, List.any_eq_true] at h ⊢
  obtain ⟨p, hp, hpe⟩ := h
  rw [beq_iff_eq] at hpe
  refine ⟨p, List.mem_cons_of_mem _ (List.mem_filter.mpr ⟨hp, ?_⟩), by simp [hpe]⟩
  simp [hpe, hne]

/-- Members of an updated index are the new binding or survivors from the
old one. -/
theorem mem_idxInsert (m : QueueIndex) (k : String) (v : Nat) (p : String × Nat)
    (hp : p ∈ idxInsert m k v) : p = (k, v) ∨ p ∈ m := by
  rcases List.mem_cons.mp hp with h | h
  · exact Or.inl h
  · exact Or.inr (List.mem_of_mem_filter h)

/-- C5: under well-formedness (distinct queued ids, index coherent with the
queue — true of every reachably constructed queue), `enqueue` fails with
`QueueFull` exactly when the size has reached `max_size` (this check runs
before the duplicate check), fails with `DuplicateTransfer` exactly when there
is room but the id is already queued, and otherwise appends at the tail; on
either error the state is unchanged, the size never exceeds `max_size`, and
well-formedness — in particular distinctness of queued ids — is preserved. -/
theorem enqueue_spec (q : PendingQueue) (t : Transfer) (now : Nat)
    (hwf : PendingQueue.WF q) :
    ((q.enqueue t now).1 = .error (.QueueFull q.max_size) ↔
        q.max_size ≤ q.queue.length)
    ∧ ((q.enqueue t now).1 = .error (.DuplicateTransfer t.id) ↔
        q.queue.length < q.max_size ∧ t.id ∈ q.pending_ids)
    ∧ (q.queue.length < q.max_size → t.id ∉ q.pending_ids →
        (q.enqueue t now).1 = .ok ()
        ∧ (q.enqueue t now).2.queue = q.queue ++ [PendingTransfer.new t now])
    ∧ (∀ e, (q.enqueue t now).1 = .error e → (q.enqueue t now).2 = q)
    ∧ (q.queue.length ≤ q.max_size → (q.enqueue t now).2.queue.length ≤ q.max_size)
    ∧ PendingQueue.WF (q.enqueue t now).2 := by
  have hmemiff := idxContains_iff_mem q hwf t.id
  rcases enqueue_cases q t now with ⟨hge, he⟩ | ⟨hlt, hc, he⟩ | ⟨hlt, hnc, he⟩
  · refine ⟨?_, ?_, ?_, ?_, ?_, ?_⟩
    · simp [he, hge]
    · simp [he, hge, not_le.mpr, Nat.not_lt.mpr hge]
    · intro h
      exact absurd h (Nat.not_lt.mpr hge)
    · intro e _
      simp [he]
    · intro h
      simp [he, h]
    · simpa [he] using hwf
  · have hmem : t.id ∈ q.pending_ids := hmemiff.mp hc
    refine ⟨?_, ?_, ?_, ?_, ?_, ?_⟩
    · simp only [he]
      constructor
      · intro h
        simp at h
      · intro h
        exact absurd hlt (Nat.not_lt.mpr h)
    · simp [he, hlt, hmem]
    · intro _ habs
      exact absurd hmem habs
    · intro e _
      simp [he]
    · intro h
      simp [he, h]
    · simpa [he] using hwf
  · have hnmem : t.id ∉ q.pending_ids := fun h => by
      rw [← hmemiff] at h
      rw [hnc] at h
      exact Bool.noConfusion h
    refine ⟨?_, ?_, ?_, ?_, ?_, ?_⟩
    · simp only [he]
      constructor
      · intro h
        simp at h
      · intro h
        exact absurd hlt (Nat.not_lt.mpr h)
    · simp only [he]
      constructor
      · intro h
        simp at h
      · intro h
        exact absurd h.2 hnmem
    · intro _ _
      simp [he]
    · intro e habs
      rw [he] at habs
      exact Except.noConfusion habs
    · intro _
      simp [he]
      omega
    · rw [he]
      have hids : ({ q with
          queue := q.queue ++ [PendingTransfer.new t now]
          index := idxInsert q.index t.id q.queue.length } : PendingQueue).pending_ids
            = q.pending_ids ++ [t.id] := by
        simp [PendingQueue.pending_ids, PendingTransfer.new]
      refine ⟨?_, ?_, ?_⟩
      · rw [hids]
        refine List.Nodup.append hwf.1 (List.nodup_singleton _) ?_
        intro a ha ha'
        rw [List.mem_singleton] at ha'
        exact hnmem (ha' ▸ ha)
      · intro id hid
        rw [hids] at hid
        rcases List.mem_append.mp hid with h | h
        · have hne : id ≠ t.id := fun hh => hnmem (hh ▸ h)
          exact idxContains_insert_of _ _ _ _ (hwf.2.1 id h) hne
        · rw [List.mem_singleton] at h
          exact h ▸ idxContains_insert_self _ _ _
      · intro p hp
        rw [hids]
        rcases mem_idxInsert _ _ _ _ hp with h | h
        · rw [h]
          exact List.mem_append.mpr (Or.inr (List.mem_singleton_self _))
        · exact List.mem_append.mpr (Or.inl (hwf.2.2 p h))

/-- Witness for `enqueue_spec`: enqueueing into a fresh queue of capacity 2
preserves well-formedness. -/
theorem enqueue_spec_witness :
    PendingQueue.WF ((PendingQueue.new 2).enqueue (Transfer.mk "a" 3) 0).2 :=
  (enqueue_spec (PendingQueue.new 2) (Transfer.mk "a" 3) 0 (by decide)).2.2.2.2.2

/-- Two boolean expressions are equal exactly when they are equi-true. -/
theorem bool_eq_iff (a b : Bool) : a = b ↔ (a = true ↔ b = true) := by
  constructor
  · intro h
    rw [h]
  · intro h
    cases a <;> cases b <;> simp_all

/-- Sorting then deduplicating leaves more than one element exactly when the
list held two distinct elements. -/
theorem one_lt_dedup_sorted_length (base : List Nat) :
    1 < ((base.insertionSort (· ≤ ·)).dedup).length ↔ ∃ a ∈ base, ∃ b ∈ base, a ≠ b := by
  have hperm : ((base.insertionSort (· ≤ ·)).dedup).length = base.dedup.length :=
    ((List.perm_insertionSort _ base).dedup).length_eq
  rw [hperm, ← List.card_toFinset, Finset.one_lt_card]
  simp [List.mem_toFinset]

/-- A routes-plus-primary list has two distinct elements exactly when some
route differs from the primary. -/
theorem exists_ne_append_singleton (routes : List Nat) (primary : Nat) :
    (∃ a ∈ routes ++ [primary], ∃ b ∈ routes ++ [primary], a ≠ b)
      ↔ ∃ r ∈ routes, r ≠ primary := by
  constructor
  · rintro ⟨a, ha, b, hb, hab⟩
    by_cases hap : a = primary
    · subst hap
      rcases List.mem_append.mp hb with h | h
      · exact ⟨b, h, fun hh => hab hh.symm⟩
      · rw [List.mem_singleton] at h
        exact absurd h.symm hab
    · rcases List.mem_append.mp ha with h | h
      · exact ⟨a, h, hap⟩
      · rw [List.mem_singleton] at h
        exact absurd h hap
  · rintro ⟨r, hr, hne⟩
    exact ⟨r, List.mem_append.mpr (Or.inl hr), primary,
      List.mem_append.mpr (Or.inr (List.mem_singleton_self _)), hne⟩

/-- For every router and context, the object-based cross-shard check against
the routed primary shard coincides with `route_detailed`'s coordination
flag. -/
theorem check_eq_requires (r : UnifiedRouter) (ctx : RoutingContext) :
    r.check_cross_shard_objects ctx (r.route ctx).primary_shard
      = (r.route_detailed ctx).requires_coordination := by
  have hreq : (r.route_detailed ctx).requires_coordination
      = decide (1 <
          ((((ctx.touched_objects.map
                (fun obj => (obj, r.object_strategy.route_object obj))).map (·.2))
              ++ [(r.route ctx).primary_shard]).insertionSort (· ≤ ·)).dedup.length) := rfl
  have hmm : ((ctx.touched_objects.map
        (fun obj => (obj, r.object_strategy.route_object obj))).map (·.2))
      = ctx.touched_objects.map r.object_strategy.route_object := by
    rw [List.map_map]
    rfl
  rw [hreq, hmm, bool_eq_iff]
  rw [decide_eq_true_eq, one_lt_dedup_sorted_length, exists_ne_append_singleton]
  rw [UnifiedRouter.check_cross_shard_objects, List.any_eq_true]
  constructor
  · rintro ⟨obj, hobj, hne⟩
    rw [bne_iff_ne] at hne
    exact ⟨r.object_strategy.route_object obj, List.mem_map_of_mem _ hobj, hne⟩
  · rintro ⟨s, hs, hne⟩
    obtain ⟨obj, hobj, rfl⟩ := List.mem_map.mp hs
    exact ⟨obj, hobj, by simpa [bne_iff_ne] using hne⟩

/-- C10: under `SubnetFirst` and `ObjectOnly`, `route`'s `is_cross_shard`
flag and `route_detailed`'s `requires_coordination` flag agree for every
context and every subnet router function, and both coincide with
`all_shards` (the sorted deduplicated union of object shards and the primary
shard) having more than one element; under `SubnetOnly`, `route` always
reports `is_cross_shard = false`, yet `route_detailed` can still report
`requires_coordination = true`, as the concrete two-object context shows. -/
theorem unified_cross_shard_spec :
    (∀ (sr : SubnetId → ShardId) (oc : Nat) (ctx : RoutingContext),
      ((UnifiedRouter.with_strategy (.SubnetFirst oc) sr).route ctx).is_cross_shard
        = ((UnifiedRouter.with_strategy (.SubnetFirst oc) sr).route_detailed
            ctx).requires_coordination)
    ∧ (∀ (sr : SubnetId → ShardId) (sc : Nat) (ctx : RoutingContext),
      ((UnifiedRouter.with_strategy (.ObjectOnly sc) sr).route ctx).is_cross_shard
        = ((UnifiedRouter.with_strategy (.ObjectOnly sc) sr).route_detailed
            ctx).requires_coordination)
    ∧ (∀ (r : UnifiedRouter) (ctx : RoutingContext),
      (r.route_detailed ctx).requires_coordination
        = decide (1 < (r.route_detailed ctx).all_shards.length))
    ∧ (∀ (sr : SubnetId → ShardId) (ctx : RoutingContext),
      ((UnifiedRouter.with_strategy .SubnetOnly sr).route ctx).is_cross_shard = false)
    ∧ (((UnifiedRouter.with_strategy .SubnetOnly (subnetRouteHashBased 16)).route
          ((RoutingContext.with_object (mkId 0 0)).with_touched_objects
            [mkId 0 0, mkId 0 1])).is_cross_shard = false
      ∧ ((UnifiedRouter.with_strategy .SubnetOnly (subnetRouteHashBased 16)).route_detailed
          ((RoutingContext.with_object (mkId 0 0)).with_touched_objects
            [mkId 0 0, mkId 0 1])).requires_coordination = true) := by
  refine ⟨?_, ?_, ?_, ?_, ?_, ?_⟩
  · intro sr oc ctx
    have hcross : ((UnifiedRouter.with_strategy (.SubnetFirst oc) sr).route ctx).is_cross_shard
        = (UnifiedRouter.with_strategy (.SubnetFirst oc) sr).check_cross_shard_objects ctx
            ((UnifiedRouter.with_strategy (.SubnetFirst oc) sr).route ctx).primary_shard := by
      rcases hs : ctx.subnet_id with _ | sid <;>
        simp [UnifiedRouter.route, UnifiedRouter.with_strategy, hs]
    rw [hcross, check_eq_requires]
  · intro sr sc ctx
    have hcross : ((UnifiedRouter.with_strategy (.ObjectOnly sc) sr).route ctx).is_cross_shard
        = (UnifiedRouter.with_strategy (.ObjectOnly sc) sr).check_cross_shard_objects ctx
            ((UnifiedRouter.with_strategy (.ObjectOnly sc) sr).route ctx).primary_shard := by
      simp [UnifiedRouter.route, UnifiedRouter.with_strategy]
    rw [hcross, check_eq_requires]
  · intro r ctx
    rfl
  · intro sr ctx
    simp [UnifiedRouter.route, UnifiedRouter.with_strategy]
  · decide
  · decide

end Setu
